import Mathlib

/-!
# Verification of the dataset / data-loading layer

Shallow embedding of `CustomImageDataset` from
`src/001-Start/002-datasets_dataloaders.ipynb`, together with a model of
the batch-iteration engine described by the design specification (the
batching itself is performed by the vendored `DataLoader` library, whose
source is not part of this repository, so it is modelled from the spec).
-/

/-- Errors a dataset access can produce: an out-of-range index (pandas
`iloc` raises `IndexError`) or a failed image read (`read_image` raising
on a missing or undecodable file). -/
inductive DataError where
  | outOfRange
  | fetchFailed
deriving DecidableEq, Repr

deriving instance DecidableEq for Except

/-- Positional row lookup, the behaviour of `DataFrame.iloc[index, _]` on a
frame of `rows.length` rows: indices in `[0, n)` address rows directly,
indices in `[-n, 0)` address row `n + index`, anything else is an
`IndexError`. -/
def ilocRow {α : Type} (rows : List α) (index : Int) : Option α :=
  let n : Int := rows.length
  if 0 ≤ index then
    if index < n then rows[index.toNat]? else none
  else
    if -n ≤ index then rows[(index + n).toNat]? else none

/-- `s.startswith(p)`, computed on the underlying character lists so that
it evaluates by kernel reduction. -/
def strStartsWith (s p : String) : Bool :=
  p.data.isPrefixOf s.data

/-- `s.endswith(p)`, computed on the underlying character lists. -/
def strEndsWith (s p : String) : Bool :=
  p.data.reverse.isPrefixOf s.data.reverse

/-- `os.path.join(a, b)` for a single relative or absolute component `b`:
an absolute `b` discards `a`; otherwise the two are joined with exactly
one separator. -/
def osPathJoin (a b : String) : String :=
  if strStartsWith b "/" then b
  else if a = "" then b
  else if strEndsWith a "/" then a ++ b
  else a ++ "/" ++ b

/-- `if f: x = f(x)` — apply an optional transform, as in the truthiness
test `if self.transform:` of the notebook. -/
def applyIfSome {α : Type} (f : Option (α → α)) (x : α) : α :=
  match f with
  | some t => t x
  | none => x

/-- The state of a `CustomImageDataset` after `__init__`: the parsed CSV
manifest (`self.img_labels`, kept as (path, label) rows), the image
directory and the two optional transforms. `Img` is the type of decoded
images, `Lbl` the type of labels. -/
structure CustomImageDataset (Img Lbl : Type) where
  img_labels : List (String × Lbl)
  img_dir : String
  transform : Option (Img → Img)
  target_transform : Option (Lbl → Lbl)

namespace CustomImageDataset

variable {Img Lbl : Type}

/-- `__init__`: `pd.read_csv(annotations_file)` may fail on a malformed
file; its outcome is passed in as `readCsvResult`. On success every field
is a straight assignment. -/
def init (readCsvResult : Except String (List (String × Lbl)))
    (img_dir : String) (transform : Option (Img → Img))
    (target_transform : Option (Lbl → Lbl)) :
    Except String (CustomImageDataset Img Lbl) :=
  match readCsvResult with
  | .error e => .error e
  | .ok rows => .ok ⟨rows, img_dir, transform, target_transform⟩

/-- `__len__`: `len(self.img_labels)`. -/
def lenD (self : CustomImageDataset Img Lbl) : Nat :=
  self.img_labels.length

/-- `__getitem__`: look the row up by position, join the path, read the
image (`read_image` models the filesystem/decoder, `none` = read failure),
take the label from column 1, then apply the optional transforms. -/
def getitem (self : CustomImageDataset Img Lbl)
    (read_image : String → Option Img) (index : Int) :
    Except DataError (Img × Lbl) :=
  match ilocRow self.img_labels index with
  | none => .error .outOfRange
  | some row =>
    let img_path := osPathJoin self.img_dir row.1
    match read_image img_path with
    | none => .error .fetchFailed
    | some image =>
      let label := row.2
      let image := applyIfSome self.transform image
      let label := applyIfSome self.target_transform label
      .ok (image, label)

/-- `__getitem__` as a state transformer: the method body contains no
assignment to any `self` field, so the post-state it produces is the
received state. -/
def getitemSt (self : CustomImageDataset Img Lbl)
    (read_image : String → Option Img) (index : Int) :
    Except DataError (Img × Lbl) × CustomImageDataset Img Lbl :=
  (self.getitem read_image index, self)

/-- Run a sequence of `__getitem__` calls, threading the dataset state
through (a failed call leaves the state as it was). -/
def runGets (self : CustomImageDataset Img Lbl)
    (read_image : String → Option Img) : List Int → CustomImageDataset Img Lbl
  | [] => self
  | i :: rest => (self.getitemSt read_image i).2.runGets read_image rest

end CustomImageDataset

/-- Modelled from the spec: each `next batch` call consumes the next
`batch_size` indices from the epoch ordering, or the remainder if fewer
remain. `fuel` bounds the number of calls; `l.length` calls always
suffice for a positive batch size. The vendored `DataLoader` that performs
this batching is not part of the repository's sources. -/
def chunksAux {α : Type} (B : Nat) : Nat → List α → List (List α)
  | 0, _ => []
  | _, [] => []
  | fuel + 1, x :: xs => (x :: xs).take B :: chunksAux B fuel ((x :: xs).drop B)

/-- Modelled from the spec: the full sequence of batches of one epoch over
the ordering `l` with batch size `B`. -/
def chunks {α : Type} (B : Nat) (l : List α) : List (List α) :=
  chunksAux B l.length l

/-- Modelled from the spec: the index batches of one full pass. With
`drop_last` a final partial batch (one shorter than `B`) is suppressed
rather than yielded short. -/
def batchIndices (B : Nat) (drop_last : Bool) (ordering : List Nat) :
    List (List Nat) :=
  if drop_last then (chunks B ordering).filter (fun b => b.length == B)
  else chunks B ordering

/-- Modelled from the spec: one synchronous full pass (`num_workers = 0`);
each index batch is mapped through the dataset's `get`. -/
def epochBatches {σ : Type} (get : Nat → σ) (B : Nat) (drop_last : Bool)
    (ordering : List Nat) : List (List σ) :=
  (batchIndices B drop_last ordering).map (List.map get)

/-- Modelled from the spec: worker-mode prefetch (`num_workers > 0`).
Worker tasks fetch batches independently (each fetch is index-addressed,
with no shared mutable state) and complete in an arbitrary order given by
`completion`, a permutation of the submitted batch positions; each
completed batch enters the handoff queue tagged with its submission
position. -/
def workerCompleted {σ : Type} (get : Nat → σ) (B : Nat) (drop_last : Bool)
    (ordering : List Nat) (completion : List Nat) : List (Nat × List σ) :=
  completion.map (fun j => (j, ((batchIndices B drop_last ordering).getD j []).map get))

/-- Modelled from the spec: the bounded ordered handoff queue. The
consumer receives batch `0`, then batch `1`, … — completed batches are
reordered to match submission order before becoming visible. -/
def deliverInOrder {σ : Type} (n : Nat) (completed : List (Nat × List σ)) :
    List (List σ) :=
  (List.range n).filterMap (fun j => (completed.find? (fun p => p.1 == j)).map Prod.snd)

/-- Modelled from the spec: the batches a consumer sees in worker mode —
the completed batches, delivered through the ordered handoff queue. -/
def workerBatches {σ : Type} (get : Nat → σ) (B : Nat) (drop_last : Bool)
    (ordering : List Nat) (completion : List Nat) : List (List σ) :=
  deliverInOrder (batchIndices B drop_last ordering).length
    (workerCompleted get B drop_last ordering completion)

/-- Concrete two-row dataset without transforms, used as a test vector. -/
def dsPair : CustomImageDataset Nat Nat :=
  ⟨[("a.jpg", 4), ("b.jpg", 9)], "imgs", none, none⟩

/-- Concrete one-row dataset without transforms, used as a test vector. -/
def dsOne : CustomImageDataset Nat Nat :=
  ⟨[("a.jpg", 4)], "imgs", none, none⟩

/-- Concrete one-row dataset with both transforms set, used as a test
vector. -/
def dsTr : CustomImageDataset Nat Nat :=
  ⟨[("a.jpg", 4)], "imgs", some (fun v => v + 100), some (fun v => v * 3)⟩

/-- Concrete filesystem for the test vectors: two decodable image files. -/
def fsAB : String → Option Nat :=
  fun p => if p = "imgs/a.jpg" then some 10 else if p = "imgs/b.jpg" then some 20 else none

theorem runGets_eq {Img Lbl : Type} (d : CustomImageDataset Img Lbl)
    (fs : String → Option Img) (tr : List Int) :
    d.runGets fs tr = d := by
  induction tr with
  | nil => rfl
  | cons i rest ih => simpa [CustomImageDataset.runGets, CustomImageDataset.getitemSt] using ih

theorem chunksAux_flatten {α : Type} {B : Nat} (hB : 0 < B) :
    ∀ (fuel : Nat) (l : List α), l.length ≤ fuel → (chunksAux B fuel l).flatten = l := by
  intro fuel
  induction fuel with
  | zero =>
    intro l hl
    rw [List.eq_nil_of_length_eq_zero (Nat.le_zero.mp hl)]
    rfl
  | succ fuel ih =>
    intro l hl
    match l with
    | [] => rfl
    | x :: xs =>
      have hdrop : ((x :: xs).drop B).length ≤ fuel := by
        simp only [List.length_drop, List.length_cons]
        simp only [List.length_cons] at hl
        omega
      simp only [chunksAux, List.flatten_cons]
      rw [ih _ hdrop, List.take_append_drop]

theorem chunksAux_length {α : Type} {B : Nat} (hB : 0 < B) :
    ∀ (fuel : Nat) (l : List α), l.length ≤ fuel →
      (chunksAux B fuel l).length = (l.length + B - 1) / B := by
  intro fuel
  induction fuel with
  | zero =>
    intro l hl
    rw [List.eq_nil_of_length_eq_zero (Nat.le_zero.mp hl)]
    simp [chunksAux, Nat.div_eq_of_lt (show B - 1 < B by omega)]
  | succ fuel ih =>
    intro l hl
    match l with
    | [] =>
      show (chunksAux B (fuel + 1) ([] : List α)).length = _
      simp only [chunksAux, List.length_nil, Nat.zero_add]
      rw [Nat.div_eq_of_lt (show B - 1 < B by omega)]
    | x :: xs =>
      have hdrop : ((x :: xs).drop B).length ≤ fuel := by
        simp only [List.length_drop, List.length_cons]
        simp only [List.length_cons] at hl
        omega
      simp only [chunksAux, List.length_cons]
      rw [ih _ hdrop]
      simp only [List.length_drop, List.length_cons]
      rcases Nat.lt_or_ge (xs.length + 1) B with hlt | hge
      · have h1 : xs.length + 1 - B = 0 := by omega
        have h2 : (0 + B - 1) / B = 0 := Nat.div_eq_of_lt (by omega)
        have h3 : (xs.length + 1 + B - 1) / B = 1 := by
          apply Nat.div_eq_of_lt_le
          · omega
          · omega
        rw [h1, h2, h3]
      · have h4 : xs.length + 1 + B - 1 = (xs.length + 1 - B + B - 1) + B := by omega
        rw [h4, Nat.add_div_right _ hB]

theorem chunksAux_getLast {α : Type} {B : Nat} (hB : 0 < B) :
    ∀ (fuel : Nat) (l : List α), l.length ≤ fuel → l ≠ [] →
      ((chunksAux B fuel l).getLast?).map List.length =
        some (if l.length % B = 0 then B else l.length % B) := by
  intro fuel
  induction fuel with
  | zero =>
    intro l hl hne
    exact absurd (List.eq_nil_of_length_eq_zero (Nat.le_zero.mp hl)) hne
  | succ fuel ih =>
    intro l hl hne
    match l with
    | [] => exact absurd rfl hne
    | x :: xs =>
      set n := (x :: xs).length with hn
      have hn1 : 1 ≤ n := by simp [hn]
      rcases Nat.lt_or_ge (n - B) 1 with hsmall | hbig
      · -- the whole list fits in one (possibly short) final batch
        have hdropnil : (x :: xs).drop B = [] := by
          apply List.eq_nil_of_length_eq_zero
          simp only [List.length_drop]
          omega
        have hlen_take : ((x :: xs).take B).length = n := by
          simp only [List.length_take]
          omega
        have hrest : chunksAux B fuel ((x :: xs).drop B) = [] := by
          rw [hdropnil]
          cases fuel <;> rfl
        simp only [chunksAux, hrest, List.getLast?_singleton, Option.map_some']
        rw [hlen_take]
        rcases Nat.lt_or_ge n B with hlt | hge
        · rw [if_neg (by rw [Nat.mod_eq_of_lt hlt]; omega)]
          rw [Nat.mod_eq_of_lt hlt]
        · have : n = B := by omega
          rw [this, if_pos (Nat.mod_self B)]
      · -- more than one batch remains
        have hdrop_len : ((x :: xs).drop B).length = n - B := by
          simp only [List.length_drop]
        have hdrop_ne : (x :: xs).drop B ≠ [] := by
          intro h
          rw [h] at hdrop_len
          simp at hdrop_len
          omega
        have hfuel : ((x :: xs).drop B).length ≤ fuel := by
          rw [hdrop_len]
          simp only [List.length_cons] at hl hn
          omega
        have hrec := ih _ hfuel hdrop_ne
        have hcons_ne : chunksAux B fuel ((x :: xs).drop B) ≠ [] := by
          intro h
          rw [h] at hrec
          simp at hrec
        obtain ⟨c, cs, hcc⟩ := List.exists_cons_of_ne_nil hcons_ne
        simp only [chunksAux]
        rw [hcc, List.getLast?_cons_cons, ← hcc, hrec, hdrop_len]
        have hBn : B ≤ n := by omega
        have hmod : n % B = (n - B) % B := by
          conv_lhs => rw [← Nat.sub_add_cancel hBn]
          rw [Nat.add_mod_right]
        rw [hmod]

theorem chunksAux_filter_length {α : Type} {B : Nat} (hB : 0 < B) :
    ∀ (fuel : Nat) (l : List α), l.length ≤ fuel →
      ((chunksAux B fuel l).filter (fun b => b.length == B)).length = l.length / B := by
  intro fuel
  induction fuel with
  | zero =>
    intro l hl
    rw [List.eq_nil_of_length_eq_zero (Nat.le_zero.mp hl)]
    simp [chunksAux]
  | succ fuel ih =>
    intro l hl
    match l with
    | [] => simp [chunksAux]
    | x :: xs =>
      have hdrop : ((x :: xs).drop B).length ≤ fuel := by
        simp only [List.length_drop, List.length_cons]
        simp only [List.length_cons] at hl
        omega
      simp only [chunksAux]
      rcases Nat.lt_or_ge (xs.length + 1) B with hlt | hge
      · have htake : ((x :: xs).take B).length = xs.length + 1 := by
          simp only [List.length_take, List.length_cons]
          omega
        rw [List.filter_cons_of_neg (by simp [htake]; omega)]
        rw [ih _ hdrop]
        simp only [List.length_drop, List.length_cons]
        rw [show xs.length + 1 - B = 0 by omega, Nat.zero_div,
          Nat.div_eq_of_lt (by omega)]
      · have htake : ((x :: xs).take B).length = B := by
          simp only [List.length_take, List.length_cons]
          omega
        rw [List.filter_cons_of_pos (by simp [htake])]
        simp only [List.length_cons]
        rw [ih _ hdrop]
        simp only [List.length_drop, List.length_cons]
        rw [Nat.div_eq_sub_div hB (by omega : B ≤ xs.length + 1)]

theorem chunksAux_filter_flatten {α : Type} {B : Nat} (hB : 0 < B) :
    ∀ (fuel : Nat) (l : List α), l.length ≤ fuel →
      ((chunksAux B fuel l).filter (fun b => b.length == B)).flatten =
        l.take (B * (l.length / B)) := by
  intro fuel
  induction fuel with
  | zero =>
    intro l hl
    rw [List.eq_nil_of_length_eq_zero (Nat.le_zero.mp hl)]
    simp [chunksAux]
  | succ fuel ih =>
    intro l hl
    match l with
    | [] => simp [chunksAux]
    | x :: xs =>
      have hdrop : ((x :: xs).drop B).length ≤ fuel := by
        simp only [List.length_drop, List.length_cons]
        simp only [List.length_cons] at hl
        omega
      simp only [chunksAux]
      rcases Nat.lt_or_ge (xs.length + 1) B with hlt | hge
      · have htake : ((x :: xs).take B).length = xs.length + 1 := by
          simp only [List.length_take, List.length_cons]
          omega
        rw [List.filter_cons_of_neg (by simp [htake]; omega)]
        rw [ih _ hdrop]
        simp only [List.length_drop, List.length_cons]
        rw [show xs.length + 1 - B = 0 by omega, Nat.zero_div, Nat.mul_zero]
        simp only [List.take_zero, List.drop_nil]
        rw [Nat.div_eq_of_lt (show xs.length + 1 < B from hlt), Nat.mul_zero,
          List.take_zero]
      · have htake : ((x :: xs).take B).length = B := by
          simp only [List.length_take, List.length_cons]
          omega
        rw [List.filter_cons_of_pos (by simp [htake])]
        rw [List.flatten_cons, ih _ hdrop]
        simp only [List.length_drop, List.length_cons]
        rw [Nat.div_eq_sub_div hB (by omega : B ≤ xs.length + 1)]
        rw [Nat.mul_add, Nat.mul_one, Nat.add_comm (B * ((xs.length + 1 - B) / B)) B]
        rw [List.take_add]

theorem mem_chunksAux_filter_length {α : Type} {B : Nat}
    (fuel : Nat) (l : List α) (b : List α)
    (hb : b ∈ (chunksAux B fuel l).filter (fun c => c.length == B)) :
    b.length = B := by
  have := List.of_mem_filter hb
  simpa using this

theorem find?_map_pair {σ : Type} (g : Nat → σ) :
    ∀ (c : List Nat) (j : Nat), j ∈ c →
      (c.map (fun i => (i, g i))).find? (fun p => p.1 == j) = some (j, g j) := by
  intro c
  induction c with
  | nil => intro j hj; cases hj
  | cons i is ih =>
    intro j hj
    simp only [List.map_cons, List.find?_cons]
    by_cases hij : i = j
    · subst hij
      simp
    · have : ((i, g i).1 == j) = false := by simp [hij]
      rw [this]
      exact ih j (by rcases List.mem_cons.mp hj with h | h; exact absurd h.symm hij; exact h)

theorem map_getD_range {σ : Type} (d : σ) :
    ∀ (l : List σ), (List.range l.length).map (fun j => l.getD j d) = l := by
  intro l
  induction l with
  | nil => rfl
  | cons x xs ih =>
    simp only [List.length_cons, List.range_succ_eq_map, List.map_cons,
      List.getD_cons_zero, List.map_map]
    refine congrArg (x :: ·) ?_
    calc (List.range xs.length).map ((fun j => (x :: xs).getD j d) ∘ Nat.succ)
        = (List.range xs.length).map (fun j => xs.getD j d) := by
          apply List.map_congr_left
          intro a _
          simp [Function.comp, List.getD_cons_succ]
      _ = xs := ih

theorem filterMap_eq_map_of_some {α β : Type} (f : α → Option β) (g : α → β)
    (l : List α) (h : ∀ a ∈ l, f a = some (g a)) :
    l.filterMap f = l.map g := by
  induction l with
  | nil => rfl
  | cons x xs ih =>
    rw [List.filterMap_cons, h x (List.mem_cons_self x xs), List.map_cons]
    rw [ih (fun a ha => h a (List.mem_cons_of_mem x ha))]

theorem getD_map {α β : Type} (f : α → β) :
    ∀ (l : List α) (j : Nat) (d : α), (l.map f).getD j (f d) = f (l.getD j d) := by
  intro l
  induction l with
  | nil => intro j d; cases j <;> rfl
  | cons x xs ih =>
    intro j d
    cases j with
    | zero => rfl
    | succ j => simp only [List.map_cons, List.getD_cons_succ]; exact ih j d

theorem ilocRow_nonneg {α : Type} (rows : List α) (i : Nat) :
    ilocRow rows (i : Int) = rows[i]? := by
  unfold ilocRow
  rw [if_pos (by omega : (0 : Int) ≤ (i : Int))]
  rcases Nat.lt_or_ge i rows.length with hlt | hge
  · rw [if_pos (by omega : (i : Int) < (rows.length : Int))]
    simp
  · rw [if_neg (by omega : ¬ (i : Int) < (rows.length : Int))]
    rw [List.getElem?_eq_none hge]

theorem ilocRow_neg {α : Type} (rows : List α) (k : Nat)
    (hk1 : 1 ≤ k) (hk2 : k ≤ rows.length) :
    ilocRow rows (-(k : Int)) = rows[rows.length - k]? := by
  unfold ilocRow
  rw [if_neg (by omega : ¬ (0 : Int) ≤ -(k : Int))]
  rw [if_pos (by omega : -(rows.length : Int) ≤ -(k : Int))]
  congr 1
  omega

theorem getitem_congr_iloc {Img Lbl : Type} (d : CustomImageDataset Img Lbl)
    (fs : String → Option Img) (i j : Int)
    (h : ilocRow d.img_labels i = ilocRow d.img_labels j) :
    d.getitem fs i = d.getitem fs j := by
  unfold CustomImageDataset.getitem
  rw [h]

theorem getitem_out_of_range {Img Lbl : Type} (d : CustomImageDataset Img Lbl)
    (fs : String → Option Img) (i : Int)
    (h : ilocRow d.img_labels i = none) :
    d.getitem fs i = .error .outOfRange := by
  unfold CustomImageDataset.getitem
  rw [h]

theorem getitem_ok {Img Lbl : Type} (d : CustomImageDataset Img Lbl)
    (fs : String → Option Img) (i : Int) (row : String × Lbl) (img : Img)
    (h : ilocRow d.img_labels i = some row)
    (hfs : fs (osPathJoin d.img_dir row.1) = some img) :
    d.getitem fs i =
      .ok (applyIfSome d.transform img, applyIfSome d.target_transform row.2) := by
  unfold CustomImageDataset.getitem
  rw [h]
  simp only [hfs]

theorem getitem_fetch_failed {Img Lbl : Type} (d : CustomImageDataset Img Lbl)
    (fs : String → Option Img) (i : Int) (row : String × Lbl)
    (h : ilocRow d.img_labels i = some row)
    (hfs : fs (osPathJoin d.img_dir row.1) = none) :
    d.getitem fs i = .error .fetchFailed := by
  unfold CustomImageDataset.getitem
  rw [h]
  simp only [hfs]

/-- Claim C1: for every dataset of length `N ≥ 1` (whose backing image
file for row `N - 1` is readable), `__getitem__` at index `N` fails with
the out-of-range error, and `__getitem__` at index `N - 1` succeeds and
returns a sample. -/
theorem getitem_boundary {Img Lbl : Type} (d : CustomImageDataset Img Lbl)
    (fs : String → Option Img) (N : Nat) (row : String × Lbl) (img : Img)
    (hN : d.lenD = N) (h1 : 1 ≤ N)
    (hrow : d.img_labels[N - 1]? = some row)
    (hfs : fs (osPathJoin d.img_dir row.1) = some img) :
    d.getitem fs (N : Int) = .error .outOfRange ∧
    d.getitem fs ((N : Int) - 1) =
      .ok (applyIfSome d.transform img, applyIfSome d.target_transform row.2) := by
  constructor
  · apply getitem_out_of_range
    rw [ilocRow_nonneg]
    exact List.getElem?_eq_none (by rw [CustomImageDataset.lenD] at hN; omega)
  · have hcast : (N : Int) - 1 = ((N - 1 : Nat) : Int) := by omega
    rw [hcast]
    exact getitem_ok d fs _ row img (by rw [ilocRow_nonneg]; exact hrow) hfs

theorem getitem_boundary_wit :
    dsPair.lenD = 2 ∧
    dsPair.getitem fsAB (2 : Int) = .error .outOfRange ∧
    dsPair.getitem fsAB ((2 : Int) - 1) = .ok (20, 9) :=
  ⟨by decide,
    getitem_boundary dsPair fsAB 2 ("b.jpg", 9) 20
      (by decide) (by decide) (by decide) (by decide)⟩

/-- Claim C2: for every in-range index whose image file is readable, when
both a feature transform and a label transform were supplied at
construction, `__getitem__` returns the decoded image with the feature
transform applied and the label with the label transform applied. -/
theorem getitem_transforms_applied {Img Lbl : Type} (d : CustomImageDataset Img Lbl)
    (fs : String → Option Img) (i : Nat) (row : String × Lbl) (img : Img)
    (t : Img → Img) (tt : Lbl → Lbl)
    (ht : d.transform = some t) (htt : d.target_transform = some tt)
    (hrow : d.img_labels[i]? = some row)
    (hfs : fs (osPathJoin d.img_dir row.1) = some img) :
    d.getitem fs (i : Int) = .ok (t img, tt row.2) := by
  rw [getitem_ok d fs _ row img (by rw [ilocRow_nonneg]; exact hrow) hfs]
  rw [ht, htt]
  rfl

theorem getitem_transforms_applied_wit :
    dsTr.getitem fsAB ((0 : Nat) : Int) = .ok (110, 12) :=
  getitem_transforms_applied dsTr fsAB 0 ("a.jpg", 4) 10
    (fun v => v + 100) (fun v => v * 3) rfl rfl (by decide) (by decide)

/-- Claim C3: for the manifest-backed (lazy) dataset, `__len__` equals the
number of parsed manifest rows, and `__getitem__` at an in-range index `i`
reads the features from the file at the image directory joined with column
0 of manifest row `i` and takes the label from column 1 of that row. -/
theorem lazy_manifest_access {Img Lbl : Type}
    (rows : List (String × Lbl)) (dir : String)
    (t : Option (Img → Img)) (tt : Option (Lbl → Lbl))
    (d : CustomImageDataset Img Lbl)
    (hinit : CustomImageDataset.init (.ok rows) dir t tt = .ok d) :
    d.lenD = rows.length ∧
    ∀ (i : Nat) (row : String × Lbl) (fs : String → Option Img),
      rows[i]? = some row →
      d.getitem fs (i : Int) =
        (match fs (osPathJoin dir row.1) with
          | none => .error .fetchFailed
          | some img => .ok (applyIfSome t img, applyIfSome tt row.2)) := by
  have hd : d = ⟨rows, dir, t, tt⟩ := by
    simpa [CustomImageDataset.init] using hinit.symm
  subst hd
  refine ⟨rfl, ?_⟩
  intro i row fs hrow
  cases hfs : fs (osPathJoin dir row.1) with
  | none =>
    exact getitem_fetch_failed _ fs _ row (by rw [ilocRow_nonneg]; exact hrow) hfs
  | some img =>
    exact getitem_ok _ fs _ row img (by rw [ilocRow_nonneg]; exact hrow) hfs

theorem lazy_manifest_access_wit :
    dsPair.lenD = 2 ∧ dsPair.getitem fsAB ((0 : Nat) : Int) = .ok (10, 4) := by
  have h := lazy_manifest_access [("a.jpg", 4), ("b.jpg", 9)] "imgs" none none
    dsPair rfl
  refine ⟨h.1, ?_⟩
  have h2 := h.2 0 ("a.jpg", 4) fsAB (by decide)
  rw [h2]
  decide

/-- Claim C4: `__getitem__` mutates nothing — the post-state keeps every
field (manifest, directory, both transforms) of the pre-state — and the
value of `__len__` is unchanged by any sequence of `__getitem__` calls
after construction. -/
theorem getitem_preserves_state {Img Lbl : Type} (d : CustomImageDataset Img Lbl)
    (fs : String → Option Img) (i : Nat) (hi : i < d.lenD) :
    ((d.getitemSt fs (i : Int)).2.img_labels = d.img_labels ∧
      (d.getitemSt fs (i : Int)).2.img_dir = d.img_dir ∧
      (d.getitemSt fs (i : Int)).2.transform = d.transform ∧
      (d.getitemSt fs (i : Int)).2.target_transform = d.target_transform) ∧
    ∀ (tr : List Int), (d.runGets fs tr).lenD = d.lenD := by
  refine ⟨⟨rfl, rfl, rfl, rfl⟩, ?_⟩
  intro tr
  rw [runGets_eq]

theorem getitem_preserves_state_wit :
    (0 : Nat) < dsOne.lenD ∧
    (dsOne.runGets fsAB [0, 5, -1]).lenD = dsOne.lenD :=
  ⟨by decide, (getitem_preserves_state dsOne fsAB 0 (by decide)).2 [0, 5, -1]⟩

/-- Claim C5: a length failure is a construction-time failure — a failed
manifest parse makes `__init__` fail — while after a successful
construction `__len__` is total and returns the manifest row count at
every point of the dataset's lifetime, never failing at query time. -/
theorem length_fails_only_at_construction (Img Lbl : Type) :
    (∀ (e : String) (dir : String) (t : Option (Img → Img))
        (tt : Option (Lbl → Lbl)),
      CustomImageDataset.init (.error e) dir t tt = .error e) ∧
    (∀ (rows : List (String × Lbl)) (dir : String) (t : Option (Img → Img))
        (tt : Option (Lbl → Lbl)) (d : CustomImageDataset Img Lbl),
      CustomImageDataset.init (.ok rows) dir t tt = .ok d →
      ∀ (fs : String → Option Img) (tr : List Int),
        (d.runGets fs tr).lenD = rows.length) := by
  constructor
  · intro e dir t tt
    rfl
  · intro rows dir t tt d hinit fs tr
    have hd : d = ⟨rows, dir, t, tt⟩ := by
      simpa [CustomImageDataset.init] using hinit.symm
    subst hd
    rw [runGets_eq]
    rfl

theorem length_fails_only_at_construction_wit :
    CustomImageDataset.init (.ok [("a.jpg", 4)]) "imgs" none none = .ok dsOne ∧
    (dsOne.runGets (fun _ => none) [0, 1]).lenD = 1 :=
  ⟨rfl,
    (length_fails_only_at_construction Nat Nat).2 [("a.jpg", 4)] "imgs" none none
      dsOne rfl (fun _ => none) [0, 1]⟩

/-- Claim C9: `__getitem__` accepts negative indices — pandas positional
indexing maps `-k` (for `1 ≤ k ≤ N`) to row `N - k` — so `get(-k)` never
reports out-of-range and returns exactly what `get(N - k)` returns; when
the backing image read succeeds it returns that row's sample. -/
theorem getitem_negative_index {Img Lbl : Type} (d : CustomImageDataset Img Lbl)
    (fs : String → Option Img) (N k : Nat)
    (hN : d.lenD = N) (hk1 : 1 ≤ k) (hk2 : k ≤ N) :
    d.getitem fs (-(k : Int)) = d.getitem fs ((N : Int) - k) ∧
    d.getitem fs (-(k : Int)) ≠ .error .outOfRange ∧
    (∀ (row : String × Lbl) (img : Img),
      d.img_labels[N - k]? = some row →
      fs (osPathJoin d.img_dir row.1) = some img →
      d.getitem fs (-(k : Int)) =
        .ok (applyIfSome d.transform img, applyIfSome d.target_transform row.2)) := by
  have hlen : d.img_labels.length = N := hN
  have hneg : ilocRow d.img_labels (-(k : Int)) = d.img_labels[N - k]? := by
    rw [ilocRow_neg d.img_labels k hk1 (by omega), hlen]
  have hpos : ilocRow d.img_labels ((N : Int) - k) = d.img_labels[N - k]? := by
    rw [show (N : Int) - k = ((N - k : Nat) : Int) by omega, ilocRow_nonneg]
  have hsome : ∃ row, d.img_labels[N - k]? = some row := by
    have : N - k < d.img_labels.length := by omega
    rcases List.getElem?_eq_some.mpr ⟨this, rfl⟩ with h
    exact ⟨_, h⟩
  obtain ⟨row, hrow⟩ := hsome
  refine ⟨getitem_congr_iloc d fs _ _ (hneg.trans hpos.symm), ?_, ?_⟩
  · cases hfs : fs (osPathJoin d.img_dir row.1) with
    | none =>
      rw [getitem_fetch_failed d fs _ row (hneg.trans hrow) hfs]
      intro h
      cases h
    | some img =>
      rw [getitem_ok d fs _ row img (hneg.trans hrow) hfs]
      intro h
      cases h
  · intro row2 img hrow2 hfs
    exact getitem_ok d fs _ row2 img (hneg.trans hrow2) hfs

theorem getitem_negative_index_wit :
    dsPair.lenD = 2 ∧
    dsPair.getitem fsAB (-(1 : Int)) = dsPair.getitem fsAB ((2 : Int) - 1) :=
  ⟨by decide,
    (getitem_negative_index dsPair fsAB 2 1 (by decide) (by decide) (by decide)).1⟩

/-- Claim C10: when neither transform was supplied at construction,
`__getitem__` at an in-range index returns the decoded image exactly as
the image reader produced it and the label exactly as stored in column 1
of the manifest row, untouched. -/
theorem getitem_no_transforms {Img Lbl : Type} (d : CustomImageDataset Img Lbl)
    (fs : String → Option Img) (i : Nat) (row : String × Lbl) (img : Img)
    (ht : d.transform = none) (htt : d.target_transform = none)
    (hrow : d.img_labels[i]? = some row)
    (hfs : fs (osPathJoin d.img_dir row.1) = some img) :
    d.getitem fs (i : Int) = .ok (img, row.2) := by
  rw [getitem_ok d fs _ row img (by rw [ilocRow_nonneg]; exact hrow) hfs]
  rw [ht, htt]
  rfl

theorem getitem_no_transforms_wit :
    dsOne.getitem fsAB ((0 : Nat) : Int) = .ok (10, 4) :=
  getitem_no_transforms dsOne fsAB 0 ("a.jpg", 4) 10 rfl rfl (by decide) (by decide)

theorem map_length_map_map {α β : Type} (g : α → β) (L : List (List α)) :
    (L.map (List.map g)).map List.length = L.map List.length := by
  induction L with
  | nil => rfl
  | cons c cs ih => simp [List.length_map, ih]

theorem getLast_len_map_map {α β : Type} (g : α → β) (L : List (List α)) :
    Option.map List.length ((L.map (List.map g)).getLast?) =
      Option.map List.length L.getLast? := by
  rw [List.getLast?_map]
  cases L.getLast? <;> simp [List.length_map]

/-- Claim C6: with `drop_last = false` a full pass over a dataset of
length `N` with batch size `B > 0` yields exactly `⌈N / B⌉` batches, the
batch sizes sum to exactly `N`, and the last batch has size `N mod B`
(or `B` when `B` divides `N`). -/
theorem epoch_no_drop_last {σ : Type} (get : Nat → σ) (N B : Nat) (hB : 0 < B)
    (ordering : List Nat) (hord : ordering.Perm (List.range N)) :
    (epochBatches get B false ordering).length = (N + B - 1) / B ∧
    ((epochBatches get B false ordering).map List.length).sum = N ∧
    (1 ≤ N →
      Option.map List.length ((epochBatches get B false ordering).getLast?) =
        some (if N % B = 0 then B else N % B)) := by
  have hlen : ordering.length = N := by rw [hord.length_eq, List.length_range]
  have hb : epochBatches get B false ordering = (chunks B ordering).map (List.map get) := by
    simp [epochBatches, batchIndices]
  refine ⟨?_, ?_, ?_⟩
  · rw [hb, List.length_map, chunks, chunksAux_length hB _ _ le_rfl, hlen]
  · rw [hb, map_length_map_map, ← List.length_flatten, chunks,
      chunksAux_flatten hB _ _ le_rfl, hlen]
  · intro hN
    have hne : ordering ≠ [] := by
      intro h
      rw [h] at hlen
      simp at hlen
      omega
    rw [hb, getLast_len_map_map, chunks, chunksAux_getLast hB _ _ le_rfl hne, hlen]

theorem epoch_no_drop_last_wit :
    (0 < 3) ∧
    (epochBatches (fun i => i) 3 false (List.range 10)).length = (10 + 3 - 1) / 3 ∧
    ((epochBatches (fun i => i) 3 false (List.range 10)).map List.length).sum = 10 ∧
    (epochBatches (fun i => i) 3 false (List.range 10)).map List.length = [3, 3, 3, 1] :=
  ⟨by decide,
    (epoch_no_drop_last (fun i => i) 10 3 (by decide) (List.range 10) (List.Perm.refl _)).1,
    (epoch_no_drop_last (fun i => i) 10 3 (by decide) (List.range 10) (List.Perm.refl _)).2.1,
    by decide⟩

/-- Claim C7: with `drop_last = true` a full pass over a dataset of length
`N` with batch size `B > 0` yields exactly `⌊N / B⌋` batches, each of size
exactly `B`; the batch sizes sum to `N - N mod B`, the delivered samples
are precisely those of the first `B * ⌊N / B⌋` positions of the epoch
ordering, and none of the remaining `N mod B` index positions is ever
returned. -/
theorem epoch_drop_last {σ : Type} (get : Nat → σ) (N B : Nat) (hB : 0 < B)
    (ordering : List Nat) (hord : ordering.Perm (List.range N)) :
    (epochBatches get B true ordering).length = N / B ∧
    (∀ b ∈ epochBatches get B true ordering, b.length = B) ∧
    ((epochBatches get B true ordering).map List.length).sum = N - N % B ∧
    (epochBatches get B true ordering).flatten = (ordering.take (B * (N / B))).map get ∧
    (∀ i ∈ ordering.drop (B * (N / B)), i ∉ (batchIndices B true ordering).flatten) := by
  have hlen : ordering.length = N := by rw [hord.length_eq, List.length_range]
  have hbi : batchIndices B true ordering =
      (chunks B ordering).filter (fun b => b.length == B) := by
    simp [batchIndices]
  have hb : epochBatches get B true ordering =
      ((chunks B ordering).filter (fun b => b.length == B)).map (List.map get) := by
    rw [epochBatches, hbi]
  have hdm := Nat.div_add_mod N B
  have hcut : B * (N / B) ≤ N := by omega
  refine ⟨?_, ?_, ?_, ?_, ?_⟩
  · rw [hb, List.length_map, chunks, chunksAux_filter_length hB _ _ le_rfl, hlen]
  · intro b hbmem
    rw [hb] at hbmem
    obtain ⟨c, hc, rfl⟩ := List.mem_map.mp hbmem
    rw [List.length_map]
    exact mem_chunksAux_filter_length _ _ _ hc
  · rw [hb, map_length_map_map, ← List.length_flatten, chunks,
      chunksAux_filter_flatten hB _ _ le_rfl, hlen, List.length_take]
    omega
  · rw [hb, ← List.map_flatten, chunks, chunksAux_filter_flatten hB _ _ le_rfl, hlen]
  · intro i hi
    rw [hbi, chunks, chunksAux_filter_flatten hB _ _ le_rfl, hlen]
    have hnd : ordering.Nodup := hord.symm.nodup (List.nodup_range N)
    exact fun hmem => (List.disjoint_take_drop hnd le_rfl) hmem hi

theorem epoch_drop_last_wit :
    (0 < 3) ∧
    (epochBatches (fun i => i) 3 true (List.range 10)).length = 10 / 3 ∧
    ((epochBatches (fun i => i) 3 true (List.range 10)).map List.length).sum = 10 - 10 % 3 ∧
    (epochBatches (fun i => i) 3 true (List.range 10)).map List.length = [3, 3, 3] ∧
    (9 : Nat) ∉ (batchIndices 3 true (List.range 10)).flatten :=
  ⟨by decide,
    (epoch_drop_last (fun i => i) 10 3 (by decide) (List.range 10) (List.Perm.refl _)).1,
    (epoch_drop_last (fun i => i) 10 3 (by decide) (List.range 10) (List.Perm.refl _)).2.2.1,
    by decide,
    (epoch_drop_last (fun i => i) 10 3 (by decide) (List.range 10)
        (List.Perm.refl _)).2.2.2.2 9 (by decide)⟩

/-- Claim C8: the batches a consumer sees in worker/prefetch mode — the
batches completed in any order and reordered by the ordered handoff queue
— are identical, batch for batch and in the same order, to the batches of
single-threaded synchronous iteration over the same ordering. -/
theorem worker_mode_matches_sync {σ : Type} (get : Nat → σ) (B : Nat)
    (drop_last : Bool) (ordering completion : List Nat)
    (hperm : completion.Perm (List.range (batchIndices B drop_last ordering).length)) :
    workerBatches get B drop_last ordering completion =
      epochBatches get B drop_last ordering := by
  set L := batchIndices B drop_last ordering with hL
  set bs := epochBatches get B drop_last ordering with hbs
  have hlen : bs.length = L.length := by
    rw [hbs, epochBatches, List.length_map]
  have hget : ∀ j, (L.getD j []).map get = bs.getD j [] := by
    intro j
    rw [hbs, epochBatches]
    exact (getD_map (List.map get) L j []).symm
  rw [workerBatches, workerCompleted, deliverInOrder]
  have hstep :
      (List.range L.length).filterMap
        (fun j =>
          ((completion.map (fun i => (i, (L.getD i []).map get))).find?
            (fun p => p.1 == j)).map Prod.snd) =
      (List.range L.length).map (fun j => bs.getD j []) := by
    apply filterMap_eq_map_of_some
    intro j hj
    have hjc : j ∈ completion := by
      rw [hperm.mem_iff]
      exact hj
    rw [find?_map_pair (fun i => (L.getD i []).map get) completion j hjc]
    rw [Option.map_some']
    rw [hget j]
  rw [hstep, ← hlen, map_getD_range]

theorem worker_mode_matches_sync_wit :
    List.Perm [2, 0, 1] (List.range (batchIndices 2 false (List.range 5)).length) ∧
    workerBatches (fun i => i) 2 false (List.range 5) [2, 0, 1] =
      epochBatches (fun i => i) 2 false (List.range 5) :=
  ⟨by decide,
    worker_mode_matches_sync (fun i => i) 2 false (List.range 5) [2, 0, 1] (by decide)⟩
